import Mathlib

/-!
Verification of `matched_map/MatchedMap.py`

A shallow embedding of the `MatchedMap` class (constrained bijection
generator) from the `utilities` repository, together with proofs and
refutations of the specification's claims about it.

Python dicts (3.7+) are insertion-ordered, so they are embedded as
association lists `List (String × String)`; updating an existing key keeps
its position, inserting a new key appends at the end.  The sentinel value
for "unassigned" is the empty string `""`, exactly as in the source, and
Python truthiness of a string value is `v ≠ ""`.
-/

set_option autoImplicit false

namespace MatchedMapVerif

/-- An insertion-ordered string-keyed dictionary, as in Python 3.7+. -/
abbrev Assoc := List (String × String)

/-- `d[k]` as a partial lookup: value of the first entry whose key is `k`. -/
def dictGet : Assoc → String → Option String
  | [], _ => none
  | (k, v) :: r, key => if k = key then some v else dictGet r key

/-- `d[k] = v` on a Python dict: an existing key keeps its position and gets
the new value; a missing key is appended at the end. -/
def dictSet : Assoc → String → String → Assoc
  | [], key, v => [(key, v)]
  | (k, w) :: r, key, v =>
      if k = key then (key, v) :: r else (k, w) :: dictSet r key v

/-- The keys of the dictionary, in order. -/
def dictKeys (d : Assoc) : List String := d.map Prod.fst

/-- Lines 84-86 of `MatchedMap.py`:
`for name in names: if name not in current_mm.keys(): current_mm[name] = ''`.
Every name missing from the dict is appended with the `''` sentinel. -/
def addMissing : List String → Assoc → Assoc
  | [], mm => mm
  | n :: r, mm =>
      if (dictGet mm n).isSome then addMissing r mm
      else addMissing r (mm ++ [(n, "")])

/-- The target labels already consumed by the assignment: the values of all
entries that are past the `''` sentinel (Python-truthy), in order. -/
def consumedList : Assoc → List String
  | [] => []
  | (_, v) :: r => if v = "" then consumedList r else v :: consumedList r

/-- The `MatchedMap` object state after `__init__`/`__validate_setup`:
`self.names` (the validated string list), `self.mandatory_matches`, the three
behaviour flags (all `False` by default in the source), and the private
`self.__forbidden_matches` dict. -/
structure MatchedMap where
  names : List String
  mandatory_matches : Assoc := []
  match_to_self : Bool := false
  match_to_reciprocal : Bool := false
  randomize_name_order : Bool := false
  forbidden_matches : Assoc := []
deriving DecidableEq

/-- The inner `for list_name in names:` loop of `__recursive_mm_gen`
(lines 91-109), for a fixed unassigned `key`.  `recur` is the recursive call
`self.__recursive_mm_gen(new_names, new_mm)`; the loop body skips a candidate
on any of the three constraint guards, otherwise tentatively assigns
`key -> cand` on deep copies and returns the recursive result if it is truthy
(a non-empty dict).  The `cand ∉ names` branch is unreachable: candidates are
drawn from `names` itself, which is what makes `new_names.remove(list_name)`
at line 103 succeed. -/
def tryCandsGen (recur : List String → Assoc → Assoc) (cfg : MatchedMap)
    (names : List String) (mm : Assoc) (key : String) :
    List String → Option Assoc
  | [] => none
  | cand :: cs =>
      if cand = key ∧ cfg.match_to_self = false then
        tryCandsGen recur cfg names mm key cs
      else if dictGet mm cand = some key ∧ cfg.match_to_reciprocal = false then
        tryCandsGen recur cfg names mm key cs
      else if dictGet cfg.forbidden_matches key = some cand then
        tryCandsGen recur cfg names mm key cs
      else if cand ∈ names then
        let r := recur (names.erase cand) (dictSet mm key cand)
        if r ≠ [] then some r else tryCandsGen recur cfg names mm key cs
      else
        tryCandsGen recur cfg names mm key cs

/-- The outer `for key_name in current_mm.keys():` loop of
`__recursive_mm_gen` (lines 88-109).  `entries` starts as the dict itself
(which is not mutated during the loop: all writes go to deep copies), so
iterating its entries is the same as iterating its keys and looking each one
up.  An entry with a truthy value is skipped; for an unassigned entry the
candidate loop runs, and only if it falls through does the outer loop move to
the next key. -/
def tryEntriesGen (recur : List String → Assoc → Assoc) (cfg : MatchedMap)
    (names : List String) (mm : Assoc) : Assoc → Option Assoc
  | [] => none
  | (k, v) :: rest =>
      if v ≠ "" then tryEntriesGen recur cfg names mm rest
      else
        match tryCandsGen recur cfg names mm k names with
        | some r => some r
        | none => tryEntriesGen recur cfg names mm rest

/-- `__recursive_mm_gen` (lines 73-110), with an explicit fuel argument to
make the recursion structural.  Each genuine recursive call removes one
element of `names`, so fuel `names.length + 1` (as supplied by
`recursiveMmGen`) makes the fuel-exhausted branch unreachable: the embedding
computes exactly what the source computes.

Body: base case `if not names: return current_mm`; then the missing names
are inserted with the `''` sentinel (this is the only in-place mutation of
the argument dict); then the two nested loops; and on fall-through
`return current_mm or {}` (line 110), which returns the partial dict itself
whenever it is non-empty. -/
def mmGo : Nat → MatchedMap → List String → Assoc → Assoc
  | 0, _, _, mm => mm
  | fuel + 1, cfg, names, mm =>
      if names = [] then mm
      else
        let mm1 := addMissing names mm
        match tryEntriesGen (mmGo fuel cfg) cfg names mm1 mm1 with
        | some r => r
        | none => if mm1 = [] then [] else mm1

/-- `self.__recursive_mm_gen(names, current_mm)` as called by the source. -/
def recursiveMmGen (cfg : MatchedMap) (names : List String) (mm : Assoc) :
    Assoc :=
  mmGo (names.length + 1) cfg names mm

/-- The distinguishable failure kinds of `generate_matched_map`:
`oddCount` is `ValueError('Number of names must be even for reciprocal
matching')` (line 139), `noSolution` is `ValueError('Cannot generate map')`
(line 149). -/
inductive GenError where
  | oddCount
  | noSolution
deriving DecidableEq

/-- `generate_matched_map` (lines 131-158).  The two uses of the PRNG are
abstracted as function parameters: `pre` stands for `random.shuffle` of
`self.names` (applied only when `randomize_name_order` is set), `post` for
the final `random.shuffle` of the result's item list at lines 152-154
(theorems about it assume it permutes its input).  `dict(values)` rebuilds a
dict from the shuffled item list, which for the distinct keys produced here
is just the shuffled association list. -/
def generate_matched_map (m : MatchedMap) (pre : List String → List String)
    (post : Assoc → Assoc) : Except GenError Assoc :=
  if m.names = [] then .ok []
  else if m.match_to_reciprocal = true ∧ m.names.length % 2 ≠ 0 then
    .error .oddCount
  else
    let names := if m.randomize_name_order then pre m.names else m.names
    let mm := recursiveMmGen m names m.mandatory_matches
    if mm = [] then .error .noSolution
    else .ok (post mm)

/-- The contents of `self.mandatory_matches` after a call to
`generate_matched_map`.  The source passes `self.mandatory_matches` itself
(by reference) as `current_mm` of the top-level `__recursive_mm_gen` call at
line 146; lines 84-86 then insert every missing name with the `''` sentinel
into that very dict before any `deepcopy` is taken, so the matcher's
mandatory dict gains those entries.  All deeper recursion levels work on
deep copies and do not touch it, and the early returns at lines 136 and 139
happen before the search, leaving it untouched. -/
def mandatory_after_generate (m : MatchedMap)
    (pre : List String → List String) : Assoc :=
  if m.names = [] then m.mandatory_matches
  else if m.match_to_reciprocal = true ∧ m.names.length % 2 ≠ 0 then
    m.mandatory_matches
  else
    addMissing (if m.randomize_name_order then pre m.names else m.names)
      m.mandatory_matches

/-- A Python value as far as `set_forbidden_matches` can observe it: the
`isinstance(_, str)` check only distinguishes strings from non-strings, so
one non-string constructor suffices. -/
inductive PyVal where
  | pstr (s : String)
  | pint (n : Int)
deriving DecidableEq

/-- `isinstance(x, str)`. -/
def PyVal.isStr : PyVal → Bool
  | .pstr _ => true
  | .pint _ => false

/-- The string payload (used only after the `isinstance` check passed;
non-strings get a fallback rendering). -/
def PyVal.asStr : PyVal → String
  | .pstr s => s
  | .pint n => toString n

/-- The two `ValueError`s of `set_forbidden_matches`, carrying the offending
value that the source interpolates into the message:
`invalidName x` is `ValueError('Invalid name (should be str): "<x>"')`
(lines 119-122), `unknownName s` is `ValueError('Unrecognized name: "<s>"')`
(lines 125-127). -/
inductive SetForbiddenError where
  | invalidName (offender : PyVal)
  | unknownName (offender : String)
deriving DecidableEq

/-- The validation loop of `set_forbidden_matches` (lines 117-127), over the
items of `forbidden_dict` in order; returns the first error raised, if any.
The offender choice mirrors `k if not isinstance(k, str) else v` and
`k if k not in self.names else v`. -/
def checkForbidden (names : List String) :
    List (PyVal × PyVal) → Option SetForbiddenError
  | [] => none
  | (k, v) :: rest =>
      if ¬(k.isStr = true ∧ v.isStr = true) then
        some (.invalidName (if k.isStr = false then k else v))
      else if ¬(k.asStr ∈ names ∧ v.asStr ∈ names) then
        some (.unknownName (if k.asStr ∉ names then k.asStr else v.asStr))
      else checkForbidden names rest

/-- `set_forbidden_matches` (lines 112-129) as a state transformer: the
whole input dict is validated first, and only if no entry raises is
`self.__forbidden_matches` replaced wholesale (line 129).  On error the
matcher is returned unchanged together with the raised error. -/
def set_forbidden_matches (m : MatchedMap) (fd : List (PyVal × PyVal)) :
    MatchedMap × Option SetForbiddenError :=
  match checkForbidden m.names fd with
  | some e => (m, some e)
  | none =>
      ({ m with forbidden_matches := fd.map fun p => (p.1.asStr, p.2.asStr) },
       none)

/-- Modelled from the spec: the candidate loop of the reference depth-first
backtracking algorithm of section 4.2 ("Backtracking algorithm", steps 3-4).
Identical guards to the implementation, but a failed recursive call undoes
the tentative assignment (the recursion works on fresh values, so trying the
next candidate is the undo) and exhausting the candidates yields `none`
(failure), which the caller propagates to the previous choice point. -/
def specTryCands (recur : List String → Assoc → Option Assoc)
    (cfg : MatchedMap) (names : List String) (mm : Assoc) (key : String) :
    List String → Option Assoc
  | [] => none
  | cand :: cs =>
      if cand = key ∧ cfg.match_to_self = false then
        specTryCands recur cfg names mm key cs
      else if dictGet mm cand = some key ∧ cfg.match_to_reciprocal = false then
        specTryCands recur cfg names mm key cs
      else if dictGet cfg.forbidden_matches key = some cand then
        specTryCands recur cfg names mm key cs
      else if cand ∈ names then
        match recur (names.erase cand) (dictSet mm key cand) with
        | some r => some r
        | none => specTryCands recur cfg names mm key cs
      else
        specTryCands recur cfg names mm key cs

/-- Modelled from the spec: the first source label still carrying the
"unassigned" sentinel, in key order (section 4.2, step 2). -/
def firstUnassigned : Assoc → Option String
  | [] => none
  | (k, v) :: rest => if v = "" then some k else firstUnassigned rest

/-- Modelled from the spec: the reference depth-first backtracking search of
section 4.2, with the same fuel discipline as `mmGo`.  Base case: no names
left, or every source assigned (step 5).  Otherwise the first unassigned
source tries its candidates in order and a source with no viable candidate
makes the branch fail (step 4). -/
def specGo : Nat → MatchedMap → List String → Assoc → Option Assoc
  | 0, _, _, _ => none
  | fuel + 1, cfg, names, mm =>
      if names = [] then some mm
      else
        let mm1 := addMissing names mm
        match firstUnassigned mm1 with
        | none => some mm1
        | some key => specTryCands (specGo fuel cfg) cfg names mm1 key names

/-- Modelled from the spec: the reference backtracking search on the full
name list, cf. `recursiveMmGen`. -/
def specBacktrack (cfg : MatchedMap) (names : List String) (mm : Assoc) :
    Option Assoc :=
  specGo (names.length + 1) cfg names mm

/-- The list a label set gets turned into when every label is inserted with
the `''` sentinel (the shape `addMissing` produces on a fresh dict). -/
def blankOf (l : List String) : Assoc := l.map fun s => (s, "")

/-- The mutual pairing of consecutive labels: the assignment the greedy
search produces when reciprocal matching is enabled. -/
def pairUp : List String → Assoc
  | x :: y :: r => (x, y) :: (y, x) :: pairUp r
  | _ => []

/-- An assignment dict respects the forbidden-pair dict `fb`: no entry past
the `''` sentinel is a pair that `fb` marks as disallowed for its source. -/
def forbiddenOk (fb mm : Assoc) : Prop :=
  ∀ k v, (k, v) ∈ mm → v ≠ "" → dictGet fb k ≠ some v

/-- The search states `(names, current_mm)` reachable from `start` through
the recursive calls of `__recursive_mm_gen`: a step inserts the missing
sentinel entries (lines 84-86), picks a source key still carrying the
sentinel and a candidate from `names` that passes the three guards of
lines 92-98, and recurses on the state built at lines 100-104. -/
inductive Reach (cfg : MatchedMap) (start : List String × Assoc) :
    List String × Assoc → Prop
  | refl : Reach cfg start start
  | step {names : List String} {mm : Assoc} {key cand : String} :
      Reach cfg start (names, mm) →
      names ≠ [] →
      dictGet (addMissing names mm) key = some "" →
      cand ∈ names →
      ¬(cand = key ∧ cfg.match_to_self = false) →
      ¬(dictGet (addMissing names mm) cand = some key ∧
          cfg.match_to_reciprocal = false) →
      ¬(dictGet cfg.forbidden_matches key = some cand) →
      Reach cfg start
        (names.erase cand, dictSet (addMissing names mm) key cand)

/-- A `forbidden_dict` entry that `set_forbidden_matches` must reject:
a non-string component, or a component naming a label outside the set. -/
def badEntry (names : List String) (p : PyVal × PyVal) : Prop :=
  ¬(p.1.isStr = true ∧ p.2.isStr = true) ∨
    ¬(p.1.asStr ∈ names ∧ p.2.asStr ∈ names)

/-- The error raised by `set_forbidden_matches` names a component of some
entry of the offending dict: a non-string component for the
`Invalid name (should be str)` error, an out-of-set label for the
`Unrecognized name` error. -/
def offendsIn (names : List String) (fd : List (PyVal × PyVal)) :
    SetForbiddenError → Prop
  | .invalidName off =>
      ∃ p ∈ fd, (off = p.1 ∧ p.1.isStr = false) ∨
        (off = p.2 ∧ p.2.isStr = false)
  | .unknownName off =>
      ∃ p ∈ fd, (off = p.1.asStr ∨ off = p.2.asStr) ∧ off ∉ names

/-!
Theorems.

First the refuted claims, whose evidence is a closed evaluation of the
embedded code; then the helper lemmas and proofs for the confirmed ones.
-/

/-- C1: refuted by evaluation.  On the four-label set `a b c d` with default
flags the source greedily assigns `a↦b, b↦c, c↦a`, leaves `d` with no viable
candidate, and — because line 110 returns the non-empty partial dict, which
line 106 then treats as success — hands that partial dict all the way up:
`generate_matched_map` returns a mapping in which `d` is bound to the
sentinel `''`, so `d` never occurs as a value and the result is not a
permutation of the label set. -/
theorem c1_not_a_permutation :
    generate_matched_map { names := ["a", "b", "c", "d"] } id id =
      .ok [("a", "b"), ("b", "c"), ("c", "a"), ("d", "")] ∧
    "d" ∉ [("a", "b"), ("b", "c"), ("c", "a"), ("d", "")].map Prod.snd ∧
    "" ∉ ["a", "b", "c", "d"] :=
  ⟨rfl, by decide, by decide⟩

/-- C2: refuted by evaluation.  With labels `a b` and default flags no
complete assignment exists (the reference backtracking search `specBacktrack`
returns `none`), yet `generate_matched_map` returns `.ok` with the
incomplete assignment `{a: b, b: ''}` instead of failing with
`ValueError('Cannot generate map')`: the recursion can never produce the
empty dict that line 148 tests for. -/
theorem c2_no_nosolution_error :
    generate_matched_map { names := ["a", "b"] } id id =
      .ok [("a", "b"), ("b", "")] ∧
    specBacktrack { names := ["a", "b"] } ["a", "b"] [] = none :=
  ⟨rfl, rfl⟩

/-- C3: refuted by evaluation.  On `a b c d` with default flags the
reference backtracking algorithm of the spec undoes the dead-end tentative
assignment `c↦a` and completes `{a:b, b:c, c:d, d:a}`, while the
implementation keeps the dead-end branch (a failed recursive call returns a
truthy partial dict, so line 106 commits to it) and produces the partial
`{a:b, b:c, c:a, d:''}`: the two are not behaviourally equal. -/
theorem c3_not_backtracking :
    specBacktrack { names := ["a", "b", "c", "d"] } ["a", "b", "c", "d"] [] =
      some [("a", "b"), ("b", "c"), ("c", "d"), ("d", "a")] ∧
    recursiveMmGen { names := ["a", "b", "c", "d"] } ["a", "b", "c", "d"] [] =
      [("a", "b"), ("b", "c"), ("c", "a"), ("d", "")] ∧
    ([("a", "b"), ("b", "c"), ("c", "a"), ("d", "")] : Assoc) ≠
      [("a", "b"), ("b", "c"), ("c", "d"), ("d", "a")] :=
  ⟨rfl, rfl, by decide⟩

/-- C9: refuted by evaluation.  `generate_matched_map` passes
`self.mandatory_matches` by reference into the search, whose first frame
inserts every missing name with the `''` sentinel into that very dict
(lines 84-86): after the call the matcher constructed with the single
mandatory match `a↦b` over labels `a b c` holds
`{a: b, b: '', c: ''}`, not the original `{a: b}`. -/
theorem c9_mandatory_matches_mutated :
    mandatory_after_generate
        { names := ["a", "b", "c"], mandatory_matches := [("a", "b")] } id =
      [("a", "b"), ("b", ""), ("c", "")] ∧
    ([("a", "b"), ("b", ""), ("c", "")] : Assoc) ≠ [("a", "b")] :=
  ⟨rfl, by decide⟩

/-- C5: with reciprocal matching requested and an odd label count,
`generate_matched_map` raises the odd-count `ValueError` at line 139, before
the search runs: the result is the `oddCount` error and the mandatory dict
is left untouched (the in-place sentinel insertion of lines 84-86 never
executes). -/
theorem c5_odd_count (m : MatchedMap) (pre : List String → List String)
    (post : Assoc → Assoc) (hrecip : m.match_to_reciprocal = true)
    (hodd : m.names.length % 2 = 1) :
    generate_matched_map m pre post = .error .oddCount ∧
      mandatory_after_generate m pre = m.mandatory_matches := by
  have hne : m.names ≠ [] := by
    intro h
    rw [h] at hodd
    simp at hodd
  constructor
  · unfold generate_matched_map
    rw [if_neg hne, if_pos ⟨hrecip, by omega⟩]
  · unfold mandatory_after_generate
    rw [if_neg hne, if_pos ⟨hrecip, by omega⟩]

/-- Witness for C5: a three-label matcher with reciprocal matching on. -/
theorem c5_witness :
    generate_matched_map
        { names := ["a", "b", "c"], match_to_reciprocal := true } id id =
      .error .oddCount ∧
    mandatory_after_generate
        { names := ["a", "b", "c"], match_to_reciprocal := true } id =
      ([] : Assoc) :=
  c5_odd_count { names := ["a", "b", "c"], match_to_reciprocal := true }
    id id rfl (by decide)

/-!
Dictionary lemmas.
-/

theorem dictGet_isSome_iff (d : Assoc) (k : String) :
    (dictGet d k).isSome ↔ k ∈ dictKeys d := by
  induction d with
  | nil => simp [dictGet, dictKeys]
  | cons p r ih =>
      obtain ⟨k', v⟩ := p
      by_cases h : k' = k
      · subst h
        simp [dictGet, dictKeys]
      · simp [dictGet, dictKeys, h, Ne.symm h] at ih ⊢
        exact ih

theorem dictGet_append (l₁ l₂ : Assoc) (k : String) :
    dictGet (l₁ ++ l₂) k =
      match dictGet l₁ k with
      | some v => some v
      | none => dictGet l₂ k := by
  induction l₁ with
  | nil => simp [dictGet]
  | cons p r ih =>
      obtain ⟨k', v⟩ := p
      by_cases h : k' = k <;> simp [dictGet, h, ih]

theorem dictGet_append_left (l₁ l₂ : Assoc) (k : String)
    (h : k ∉ dictKeys l₁) : dictGet (l₁ ++ l₂) k = dictGet l₂ k := by
  rw [dictGet_append]
  have : dictGet l₁ k = none := by
    cases hg : dictGet l₁ k with
    | none => rfl
    | some v =>
        exact absurd ((dictGet_isSome_iff l₁ k).1 (by rw [hg]; rfl)) h
  rw [this]

theorem dictGet_blankOf (l : List String) (k : String) :
    dictGet (blankOf l) k = if k ∈ l then some "" else none := by
  induction l with
  | nil => simp [blankOf, dictGet]
  | cons x r ih =>
      by_cases h : x = k
      · subst h
        simp [blankOf, dictGet]
      · simp only [blankOf, List.map_cons, dictGet, if_neg h] at ih ⊢
        rw [ih]
        simp [Ne.symm h]

theorem dictSet_append_left (l₁ l₂ : Assoc) (k : String) (v : String)
    (h : k ∉ dictKeys l₁) :
    dictSet (l₁ ++ l₂) k v = l₁ ++ dictSet l₂ k v := by
  induction l₁ with
  | nil => simp
  | cons p r ih =>
      obtain ⟨k', w⟩ := p
      simp only [dictKeys, List.map_cons, List.mem_cons] at h
      push_neg at h
      simp only [List.cons_append, dictSet, if_neg (Ne.symm h.1)]
      congr 1
      exact ih h.2

theorem mem_dictSet (d : Assoc) (key v : String) (p : String × String)
    (h : p ∈ dictSet d key v) : p = (key, v) ∨ p ∈ d := by
  induction d with
  | nil =>
      simp only [dictSet, List.mem_singleton] at h
      exact Or.inl h
  | cons q r ih =>
      obtain ⟨k', w⟩ := q
      simp only [dictSet] at h
      by_cases hk : k' = key
      · rw [if_pos hk] at h
        rcases List.mem_cons.1 h with h1 | h1
        · exact Or.inl h1
        · exact Or.inr (List.mem_cons_of_mem _ h1)
      · rw [if_neg hk] at h
        rcases List.mem_cons.1 h with h1 | h1
        · exact Or.inr (h1 ▸ List.mem_cons_self _ _)
        · rcases ih h1 with h2 | h2
          · exact Or.inl h2
          · exact Or.inr (List.mem_cons_of_mem _ h2)

theorem mem_addMissing (names : List String) (mm : Assoc)
    (p : String × String) (h : p ∈ addMissing names mm) :
    p ∈ mm ∨ p.2 = "" := by
  induction names generalizing mm with
  | nil => exact Or.inl h
  | cons n r ih =>
      simp only [addMissing] at h
      split at h
      · exact ih mm h
      · rcases ih (mm ++ [(n, "")]) h with h' | h'
        · rcases List.mem_append.1 h' with h'' | h''
          · exact Or.inl h''
          · simp at h''
            subst h''
            exact Or.inr rfl
        · exact Or.inr h'

theorem addMissing_eq_self (names : List String) (mm : Assoc)
    (h : ∀ n ∈ names, (dictGet mm n).isSome) : addMissing names mm = mm := by
  induction names with
  | nil => rfl
  | cons n r ih =>
      simp only [addMissing, if_pos (h n (List.mem_cons_self n r))]
      exact ih fun s hs => h s (List.mem_cons_of_mem n hs)

theorem addMissing_disjoint (names : List String) (mm : Assoc)
    (hnd : names.Nodup) (h : ∀ n ∈ names, dictGet mm n = none) :
    addMissing names mm = mm ++ blankOf names := by
  induction names generalizing mm with
  | nil => simp [addMissing, blankOf]
  | cons n r ih =>
      have hn : dictGet mm n = none := h n (List.mem_cons_self n r)
      simp only [addMissing, hn, Option.isSome_none, Bool.false_eq_true,
        if_false]
      rw [ih (mm ++ [(n, "")]) hnd.of_cons]
      · simp [blankOf]
      · intro s hs
        rw [dictGet_append]
        rw [h s (List.mem_cons_of_mem n hs)]
        have hsn : n ≠ s := by
          intro hq
          subst hq
          exact (List.nodup_cons.1 hnd).1 hs
        simp [dictGet, hsn]

/-!
The forbidden-pair invariant (C6).

Every non-sentinel entry the search ever writes has passed the forbidden
guard of lines 96-98, so no result of `__recursive_mm_gen` maps a source to
the target its forbidden dict records.
-/

theorem forbiddenOk_addMissing (fb : Assoc) (names : List String)
    (mm : Assoc) (h : forbiddenOk fb mm) :
    forbiddenOk fb (addMissing names mm) := by
  intro k v hm hv
  rcases mem_addMissing names mm (k, v) hm with h1 | h1
  · exact h k v h1 hv
  · exact absurd h1 hv

theorem forbiddenOk_dictSet (fb mm : Assoc) (key cand : String)
    (h : forbiddenOk fb mm) (hg : ¬dictGet fb key = some cand) :
    forbiddenOk fb (dictSet mm key cand) := by
  intro k v hm hv
  rcases mem_dictSet mm key cand (k, v) hm with h1 | h1
  · obtain ⟨hk, hv'⟩ := Prod.mk.injEq .. ▸ h1
    subst hk
    subst hv'
    exact hg
  · exact h k v h1 hv

theorem tryCandsGen_forbidden (recur : List String → Assoc → Assoc)
    (cfg : MatchedMap) (names : List String) (mm : Assoc) (key : String)
    (hrec : ∀ ns m2, forbiddenOk cfg.forbidden_matches m2 →
      forbiddenOk cfg.forbidden_matches (recur ns m2))
    (hmm : forbiddenOk cfg.forbidden_matches mm) :
    ∀ (cands : List String) (r : Assoc),
      tryCandsGen recur cfg names mm key cands = some r →
      forbiddenOk cfg.forbidden_matches r := by
  intro cands
  induction cands with
  | nil =>
      intro r h
      simp [tryCandsGen] at h
  | cons cand cs ih =>
      intro r h
      simp only [tryCandsGen] at h
      split at h
      · exact ih r h
      · split at h
        · exact ih r h
        · split at h
          · exact ih r h
          · rename_i h3
            split at h
            · split at h
              · cases h
                exact hrec _ _ (forbiddenOk_dictSet _ _ _ _ hmm h3)
              · exact ih r h
            · exact ih r h

theorem tryEntriesGen_forbidden (recur : List String → Assoc → Assoc)
    (cfg : MatchedMap) (names : List String) (mm : Assoc)
    (hrec : ∀ ns m2, forbiddenOk cfg.forbidden_matches m2 →
      forbiddenOk cfg.forbidden_matches (recur ns m2))
    (hmm : forbiddenOk cfg.forbidden_matches mm) :
    ∀ (entries : Assoc) (r : Assoc),
      tryEntriesGen recur cfg names mm entries = some r →
      forbiddenOk cfg.forbidden_matches r := by
  intro entries
  induction entries with
  | nil =>
      intro r h
      simp [tryEntriesGen] at h
  | cons p rest ih =>
      obtain ⟨k, v⟩ := p
      intro r h
      simp only [tryEntriesGen] at h
      split at h
      · exact ih r h
      · split at h
        · rename_i hr0
          cases h
          exact tryCandsGen_forbidden recur cfg names mm k hrec hmm names _ hr0
        · exact ih r h

theorem mmGo_forbidden :
    ∀ (fuel : Nat) (cfg : MatchedMap) (names : List String) (mm : Assoc),
      forbiddenOk cfg.forbidden_matches mm →
      forbiddenOk cfg.forbidden_matches (mmGo fuel cfg names mm) := by
  intro fuel
  induction fuel with
  | zero =>
      intro cfg names mm h
      exact h
  | succ n ih =>
      intro cfg names mm h
      simp only [mmGo]
      split
      · exact h
      · have hmm1 := forbiddenOk_addMissing cfg.forbidden_matches names mm h
        split
        · rename_i r hr
          exact tryEntriesGen_forbidden (mmGo n cfg) cfg names
            (addMissing names mm) (fun ns m2 hm2 => ih cfg ns m2 hm2) hmm1
            (addMissing names mm) r hr
        · split
          · intro k v hm hv
            simp at hm
          · exact hmm1

/-- C6: with no mandatory matches, every pair the search assigns differs
from the forbidden pair its forbidden dict records for that source — for
any forbidden dict, in particular one set by `set_forbidden_matches` from a
prior successful assignment over the same label set.  Every non-sentinel
value in the result was written at line 102 after the guard of lines 96-98
rejected the recorded forbidden target. -/
theorem c6_forbidden_pairs_respected (m : MatchedMap)
    (pre : List String → List String) (post : Assoc → Assoc)
    (hmand : m.mandatory_matches = [])
    (hpost : ∀ l : Assoc, (post l).Perm l) (res : Assoc) (k v : String)
    (hgen : generate_matched_map m pre post = .ok res)
    (hmem : (k, v) ∈ res) (hv : v ≠ "") :
    dictGet m.forbidden_matches k ≠ some v := by
  simp only [generate_matched_map] at hgen
  split at hgen
  · cases hgen
    simp at hmem
  · split at hgen
    · cases hgen
    · set ns := if m.randomize_name_order then pre m.names else m.names
        with hns
      split at hgen
      · cases hgen
      · cases hgen
        have hbase : forbiddenOk m.forbidden_matches
            (recursiveMmGen m ns m.mandatory_matches) := by
          apply mmGo_forbidden
          rw [hmand]
          intro a b hab
          simp at hab
        exact hbase k v (((hpost _).mem_iff).1 hmem) hv

/-- Witness for C6: labels `a b c` with forbidden pair `a↦b`; the search
assigns `a↦c` and indeed `a↦c` is not the forbidden `a↦b`. -/
theorem c6_witness :
    dictGet [("a", "b")] "a" ≠ some "c" :=
  c6_forbidden_pairs_respected
    { names := ["a", "b", "c"], forbidden_matches := [("a", "b")] } id id rfl
    (fun l => List.Perm.refl l) [("a", "c"), ("b", "a"), ("c", "b")] "a" "c"
    rfl (by decide) (by decide)

/-!
The consumed-target invariant (C8).
-/

theorem consumedList_append (l₁ l₂ : Assoc) :
    consumedList (l₁ ++ l₂) = consumedList l₁ ++ consumedList l₂ := by
  induction l₁ with
  | nil => rfl
  | cons p r ih =>
      obtain ⟨k, v⟩ := p
      by_cases hv : v = "" <;>
        simp [consumedList, hv, ih]

theorem consumedList_addMissing (names : List String) (mm : Assoc) :
    consumedList (addMissing names mm) = consumedList mm := by
  induction names generalizing mm with
  | nil => rfl
  | cons n r ih =>
      simp only [addMissing]
      split
      · exact ih mm
      · rw [ih (mm ++ [(n, "")]), consumedList_append]
        simp [consumedList]

theorem consumedList_dictSet (mm : Assoc) (key v : String)
    (hk : dictGet mm key = some "") (hv : v ≠ "") :
    (consumedList (dictSet mm key v)).Perm (v :: consumedList mm) := by
  induction mm with
  | nil => simp [dictGet] at hk
  | cons p r ih =>
      obtain ⟨k', w⟩ := p
      by_cases hkk : k' = key
      · have hw : w = "" := by simpa [dictGet, hkk] using hk
        subst hw
        have hds : dictSet ((k', "") :: r) key v = (key, v) :: r := by
          simp [dictSet, hkk]
        rw [hds]
        simp only [consumedList, if_neg hv, if_pos rfl]
        exact List.Perm.refl _
      · simp only [dictGet, if_neg hkk] at hk
        simp only [dictSet, if_neg hkk]
        by_cases hw : w = ""
        · simpa [consumedList, hw] using ih hk
        · simp only [consumedList, if_neg hw]
          exact ((ih hk).cons w).trans (List.Perm.swap v w _)

/-- C8 (amended): for every search state reachable from an initial state
with no mandatory matches, over a duplicate-free label set not containing
the empty string, the multiset of target labels already consumed as values
together with the list of still-available target labels is a permutation of
the full label set, and in particular no label is consumed as a target
twice.  (The claim fails as stated for searches seeded with non-empty
mandatory matches, see the counterexample.) -/
theorem c8_consumed_invariant (cfg : MatchedMap) (names₀ : List String)
    (hnd : names₀.Nodup) (hni : "" ∉ names₀) (s : List String × Assoc)
    (hr : Reach cfg (names₀, []) s) :
    (consumedList s.2 ++ s.1).Perm names₀ ∧
      ∀ x, (consumedList s.2).count x ≤ 1 := by
  induction hr with
  | refl =>
      constructor
      · exact List.Perm.refl _
      · intro x
        simp [consumedList]
  | step hreach hne hkey hcand hg1 hg2 hg3 ih =>
      rename_i names mm key cand
      obtain ⟨hperm, hcount⟩ := ih
      have hperm' : (consumedList mm ++ names).Perm names₀ := hperm
      have hcne : cand ≠ "" := by
        intro h
        subst h
        exact hni (hperm'.mem_iff.1 (List.mem_append_right _ hcand))
      have h1 : (consumedList (dictSet (addMissing names mm) key cand)).Perm
          (cand :: consumedList mm) := by
        have := consumedList_dictSet (addMissing names mm) key cand hkey hcne
        rwa [consumedList_addMissing] at this
      have h2 : (consumedList (dictSet (addMissing names mm) key cand) ++
          names.erase cand).Perm names₀ := by
        refine (h1.append_right _).trans ?_
        refine List.Perm.trans ?_ hperm'
        have h3 : (cand :: names.erase cand).Perm names :=
          (List.perm_cons_erase hcand).symm
        have h4 : ((cand :: consumedList mm) ++ names.erase cand).Perm
            (consumedList mm ++ (cand :: names.erase cand)) :=
          (@List.perm_middle _ cand (consumedList mm) (names.erase cand)).symm
        exact h4.trans (List.Perm.append_left _ h3)
      refine ⟨h2, fun x => ?_⟩
      show List.count x
        (consumedList (dictSet (addMissing names mm) key cand)) ≤ 1
      have h3 := h2.count_eq x
      rw [List.count_append] at h3
      have h4 := List.nodup_iff_count_le_one.1 hnd x
      omega

/-- Witness for C8: the initial state of a search over `a b` (no mandatory
matches) satisfies the invariant. -/
theorem c8_witness :
    (consumedList [] ++ ["a", "b"]).Perm ["a", "b"] ∧
      (consumedList []).count "a" ≤ 1 :=
  ⟨(c8_consumed_invariant { names := ["a", "b"] } ["a", "b"] (by decide)
      (by decide) (["a", "b"], []) Reach.refl).1,
   (c8_consumed_invariant { names := ["a", "b"] } ["a", "b"] (by decide)
      (by decide) (["a", "b"], []) Reach.refl).2 "a"⟩

/-- Counterexample for C8 as stated: when the search is seeded with the
non-empty mandatory match `a↦b` over labels `a b c d`, the very first
search state (trivially reachable) already counts `b` once as a consumed
target while `b` is still in the available list, so consumed-plus-available
is not the label set with each label once; and the search goes on to assign
the target `b` to both `a` and `d`. -/
theorem c8_counterexample :
    Reach { names := ["a", "b", "c", "d"], mandatory_matches := [("a", "b")] }
        (["a", "b", "c", "d"], [("a", "b")])
        (["a", "b", "c", "d"], [("a", "b")]) ∧
    ¬(consumedList [("a", "b")] ++ ["a", "b", "c", "d"]).Perm
        ["a", "b", "c", "d"] ∧
    recursiveMmGen
        { names := ["a", "b", "c", "d"], mandatory_matches := [("a", "b")] }
        ["a", "b", "c", "d"] [("a", "b")] =
      [("a", "b"), ("b", "c"), ("c", "a"), ("d", "b")] :=
  ⟨Reach.refl, by decide, rfl⟩

/-!
Validation of forbidden dicts (C7).
-/

theorem offendsIn_cons (names : List String) (q : PyVal × PyVal)
    (rest : List (PyVal × PyVal)) (e : SetForbiddenError)
    (h : offendsIn names rest e) : offendsIn names (q :: rest) e := by
  cases e with
  | invalidName off =>
      obtain ⟨p, hp, hq⟩ := h
      exact ⟨p, List.mem_cons_of_mem _ hp, hq⟩
  | unknownName off =>
      obtain ⟨p, hp, hq⟩ := h
      exact ⟨p, List.mem_cons_of_mem _ hp, hq⟩

theorem checkForbidden_of_bad (names : List String) :
    ∀ fd : List (PyVal × PyVal), (∃ p ∈ fd, badEntry names p) →
      ∃ e, checkForbidden names fd = some e ∧ offendsIn names fd e := by
  intro fd
  induction fd with
  | nil =>
      rintro ⟨p, hp, -⟩
      simp at hp
  | cons q rest ih =>
      intro hbad
      obtain ⟨k, v⟩ := q
      by_cases h1 : k.isStr = true ∧ v.isStr = true
      · by_cases h2 : k.asStr ∈ names ∧ v.asStr ∈ names
        · have hrest : ∃ p ∈ rest, badEntry names p := by
            obtain ⟨p, hp, hbp⟩ := hbad
            rcases List.mem_cons.1 hp with hq | hq
            · subst hq
              rcases hbp with hbp | hbp
              · exact absurd h1 hbp
              · exact absurd h2 hbp
            · exact ⟨p, hq, hbp⟩
          obtain ⟨e, he, hoff⟩ := ih hrest
          refine ⟨e, ?_, offendsIn_cons names (k, v) rest e hoff⟩
          simp only [checkForbidden, if_neg (not_not_intro h1),
            if_neg (not_not_intro h2)]
          exact he
        · refine ⟨.unknownName (if k.asStr ∉ names then k.asStr else v.asStr),
            ?_, ?_⟩
          · simp only [checkForbidden, if_neg (not_not_intro h1), if_pos h2]
          · by_cases hk : k.asStr ∈ names
            · have hv : v.asStr ∉ names := fun hv => h2 ⟨hk, hv⟩
              rw [if_neg (not_not_intro hk)]
              exact ⟨(k, v), List.mem_cons_self _ _, Or.inr rfl, hv⟩
            · rw [if_pos hk]
              exact ⟨(k, v), List.mem_cons_self _ _, Or.inl rfl, hk⟩
      · refine ⟨.invalidName (if k.isStr = false then k else v), ?_, ?_⟩
        · simp only [checkForbidden, if_pos h1]
        · by_cases hk : k.isStr = false
          · rw [if_pos hk]
            exact ⟨(k, v), List.mem_cons_self _ _, Or.inl ⟨rfl, hk⟩⟩
          · have hk' : k.isStr = true := by
              cases hks : k.isStr
              · exact absurd hks hk
              · rfl
            have hv : v.isStr = false := by
              cases hvs : v.isStr
              · rfl
              · exact absurd ⟨hk', hvs⟩ h1
            rw [if_neg hk]
            exact ⟨(k, v), List.mem_cons_self _ _, Or.inr ⟨rfl, hv⟩⟩

/-- C7: a forbidden dict containing a non-string component or a label
outside the constructed set makes `set_forbidden_matches` raise a
`ValueError` naming an offending component, and leaves the matcher — in
particular its existing forbidden-pair dict — exactly as it was: the whole
input is validated (lines 117-127) before the assignment at line 129
replaces anything. -/
theorem c7_set_forbidden_atomic (m : MatchedMap) (fd : List (PyVal × PyVal))
    (hbad : ∃ p ∈ fd, badEntry m.names p) :
    ∃ e, set_forbidden_matches m fd = (m, some e) ∧ offendsIn m.names fd e := by
  obtain ⟨e, he, hoff⟩ := checkForbidden_of_bad m.names fd hbad
  refine ⟨e, ?_, hoff⟩
  simp [set_forbidden_matches, he]

/-- Witness for C7: a dict with an integer key is rejected, the matcher is
unchanged, and the error names a component of some entry. -/
theorem c7_witness :
    ∃ e, set_forbidden_matches
        { names := ["a", "b"], forbidden_matches := [("a", "b")] }
        [(.pint 3, .pstr "a")] =
      ({ names := ["a", "b"], forbidden_matches := [("a", "b")] }, some e) ∧
      offendsIn ["a", "b"] [(.pint 3, .pstr "a")] e :=
  c7_set_forbidden_atomic
    { names := ["a", "b"], forbidden_matches := [("a", "b")] }
    [(.pint 3, .pstr "a")]
    ⟨(.pint 3, .pstr "a"), by decide, Or.inl (by decide)⟩

/-!
Randomization only affects presentation (C10).
-/

/-- C10: two matchers built from the same labels, mandatory matches,
forbidden pairs, and flags, with `randomize_name_order` left false, produce
the same set of (source, target) pairs under any two result shuffles: the
search itself is deterministic and the final `random.shuffle` at lines
152-154 only permutes the iteration order of the returned dict's entries. -/
theorem c10_randomization_is_cosmetic (m₁ m₂ : MatchedMap)
    (pre₁ pre₂ : List String → List String) (post₁ post₂ : Assoc → Assoc)
    (hn : m₁.names = m₂.names)
    (hm : m₁.mandatory_matches = m₂.mandatory_matches)
    (hf : m₁.forbidden_matches = m₂.forbidden_matches)
    (hs : m₁.match_to_self = m₂.match_to_self)
    (hr : m₁.match_to_reciprocal = m₂.match_to_reciprocal)
    (hr₁ : m₁.randomize_name_order = false)
    (hr₂ : m₂.randomize_name_order = false)
    (hpost₁ : ∀ l : Assoc, (post₁ l).Perm l)
    (hpost₂ : ∀ l : Assoc, (post₂ l).Perm l) (res₁ res₂ : Assoc)
    (h₁ : generate_matched_map m₁ pre₁ post₁ = .ok res₁)
    (h₂ : generate_matched_map m₂ pre₂ post₂ = .ok res₂) :
    ∀ p : String × String, p ∈ res₁ ↔ p ∈ res₂ := by
  have hm12 : m₁ = m₂ := by
    cases m₁
    cases m₂
    simp_all
  subst hm12
  simp only [generate_matched_map, hr₁] at h₁ h₂
  by_cases hn0 : m₁.names = []
  · rw [if_pos hn0] at h₁ h₂
    cases h₁
    cases h₂
    intro p
    rfl
  · rw [if_neg hn0] at h₁ h₂
    by_cases hodd : m₁.match_to_reciprocal = true ∧ m₁.names.length % 2 ≠ 0
    · rw [if_pos hodd] at h₁
      cases h₁
    · rw [if_neg hodd] at h₁ h₂
      simp only [Bool.false_eq_true, if_false] at h₁ h₂
      by_cases hmm0 :
          recursiveMmGen m₁ m₁.names m₁.mandatory_matches = []
      · rw [if_pos hmm0] at h₁
        cases h₁
      · rw [if_neg hmm0] at h₁ h₂
        cases h₁
        cases h₂
        intro p
        exact (hpost₁ _).mem_iff.trans (hpost₂ _).mem_iff.symm

/-- Witness for C10: the three-label matcher with the identity and the
reversing result shuffles yields the same pair set. -/
theorem c10_witness :
    ("a", "b") ∈ ([("a", "b"), ("b", "c"), ("c", "a")] : Assoc) ↔
      ("a", "b") ∈ ([("c", "a"), ("b", "c"), ("a", "b")] : Assoc) :=
  c10_randomization_is_cosmetic { names := ["a", "b", "c"] }
    { names := ["a", "b", "c"] } id id id List.reverse rfl rfl rfl rfl rfl
    rfl rfl (fun l => List.Perm.refl l) (fun l => List.reverse_perm l)
    [("a", "b"), ("b", "c"), ("c", "a")]
    [("c", "a"), ("b", "c"), ("a", "b")] rfl rfl ("a", "b")

/-!
Reciprocal matching pairs consecutive labels (C4).

With `match_to_reciprocal` on and no other constraints, the greedy search
pairs the labels two by two in list order: each first label of a pair takes
the next one, whose own first viable candidate is the reciprocal match back.
-/

theorem mmGo_succ (fuel : Nat) (cfg : MatchedMap) (names : List String)
    (mm : Assoc) :
    mmGo (fuel + 1) cfg names mm =
      if names = [] then mm
      else
        match tryEntriesGen (mmGo fuel cfg) cfg names (addMissing names mm)
            (addMissing names mm) with
        | some r => r
        | none =>
            if addMissing names mm = [] then [] else addMissing names mm :=
  rfl

theorem tryEntriesGen_cons (recur : List String → Assoc → Assoc)
    (cfg : MatchedMap) (names : List String) (mm : Assoc) (k v : String)
    (rest : Assoc) :
    tryEntriesGen recur cfg names mm ((k, v) :: rest) =
      if v ≠ "" then tryEntriesGen recur cfg names mm rest
      else
        match tryCandsGen recur cfg names mm k names with
        | some r => some r
        | none => tryEntriesGen recur cfg names mm rest :=
  rfl

theorem tryCandsGen_cons (recur : List String → Assoc → Assoc)
    (cfg : MatchedMap) (names : List String) (mm : Assoc) (key cand : String)
    (cs : List String) :
    tryCandsGen recur cfg names mm key (cand :: cs) =
      if cand = key ∧ cfg.match_to_self = false then
        tryCandsGen recur cfg names mm key cs
      else if dictGet mm cand = some key ∧ cfg.match_to_reciprocal = false then
        tryCandsGen recur cfg names mm key cs
      else if dictGet cfg.forbidden_matches key = some cand then
        tryCandsGen recur cfg names mm key cs
      else if cand ∈ names then
        if recur (names.erase cand) (dictSet mm key cand) ≠ [] then
          some (recur (names.erase cand) (dictSet mm key cand))
        else tryCandsGen recur cfg names mm key cs
      else tryCandsGen recur cfg names mm key cs :=
  rfl

theorem dictGet_eq_none (d : Assoc) (k : String) (h : k ∉ dictKeys d) :
    dictGet d k = none := by
  cases hg : dictGet d k with
  | none => rfl
  | some v =>
      exact absurd ((dictGet_isSome_iff d k).1 (by rw [hg]; rfl)) h

theorem tryEntriesGen_append (recur : List String → Assoc → Assoc)
    (cfg : MatchedMap) (names : List String) (mm : Assoc) (done rest : Assoc)
    (hdone : ∀ p ∈ done, p.2 ≠ "") :
    tryEntriesGen recur cfg names mm (done ++ rest) =
      tryEntriesGen recur cfg names mm rest := by
  induction done with
  | nil => rfl
  | cons p d ih =>
      obtain ⟨k, v⟩ := p
      rw [List.cons_append, tryEntriesGen_cons,
        if_pos (hdone (k, v) (List.mem_cons_self _ _))]
      exact ih fun q hq => hdone q (List.mem_cons_of_mem _ hq)

theorem pairUp_map_fst :
    ∀ l : List String, l.length % 2 = 0 → (pairUp l).map Prod.fst = l
  | [], _ => rfl
  | [x], h => by simp at h
  | x :: y :: r, h => by
      have hr : r.length % 2 = 0 := by
        simp only [List.length_cons] at h
        omega
      simp [pairUp, pairUp_map_fst r hr]

theorem mem_pairUp_swap :
    ∀ (l : List String) (k v : String), (k, v) ∈ pairUp l → (v, k) ∈ pairUp l
  | [], _, _, h => by simp [pairUp] at h
  | [x], _, _, h => by simp [pairUp] at h
  | x :: y :: r, k, v, h => by
      simp only [pairUp, List.mem_cons, Prod.mk.injEq] at h ⊢
      rcases h with ⟨h1, h2⟩ | ⟨h1, h2⟩ | h
      · subst h1; subst h2
        exact Or.inr (Or.inl ⟨rfl, rfl⟩)
      · subst h1; subst h2
        exact Or.inl ⟨rfl, rfl⟩
      · exact Or.inr (Or.inr (mem_pairUp_swap r k v h))

theorem pairUp_ne_nil :
    ∀ l : List String, l ≠ [] → l.length % 2 = 0 → pairUp l ≠ []
  | [], h, _ => absurd rfl h
  | [x], _, h => by simp at h
  | x :: y :: r, _, _ => by simp [pairUp]

/-- With self-matching off, reciprocal matching on, and no forbidden pairs,
the search on an even-length duplicate-free suffix (no `""` label) extends
the already-fixed mutual pairs `done` by pairing the suffix two by two. -/
theorem mmGo_pairUp (cfg : MatchedMap) (hself : cfg.match_to_self = false)
    (hrecip : cfg.match_to_reciprocal = true)
    (hfb : cfg.forbidden_matches = []) :
    ∀ suffix : List String, suffix.length % 2 = 0 → suffix.Nodup →
      "" ∉ suffix → ∀ done mm : Assoc, (∀ p ∈ done, p.2 ≠ "") →
      (∀ s ∈ suffix, s ∉ dictKeys done) →
      addMissing suffix mm = done ++ blankOf suffix →
      mmGo (suffix.length + 1) cfg suffix mm = done ++ pairUp suffix
  | [], heven, hnd, hni, done, mm, hdone, hdk, hadd => by
      simp only [List.length_nil]
      rw [mmGo_succ, if_pos rfl]
      simpa [addMissing, blankOf, pairUp] using hadd
  | [x], heven, hnd, hni, done, mm, hdone, hdk, hadd => by
      simp at heven
  | x :: y :: r, heven, hnd, hni, done, mm, hdone, hdk, hadd => by
      obtain ⟨hx1, hnd1⟩ := List.nodup_cons.1 hnd
      obtain ⟨hy1, hnd2⟩ := List.nodup_cons.1 hnd1
      have hxy : x ≠ y := fun h => hx1 (h ▸ List.mem_cons_self _ _)
      have hxr : x ∉ r := fun h => hx1 (List.mem_cons_of_mem _ h)
      have hxne : x ≠ "" := fun h => hni (h ▸ List.mem_cons_self _ _)
      have hyne : y ≠ "" := fun h =>
        hni (h ▸ List.mem_cons_of_mem _ (List.mem_cons_self _ _))
      have hnir : "" ∉ r := fun h =>
        hni (List.mem_cons_of_mem _ (List.mem_cons_of_mem _ h))
      have heven' : r.length % 2 = 0 := by
        simp only [List.length_cons] at heven
        omega
      have hxdk : x ∉ dictKeys done := hdk x (List.mem_cons_self _ _)
      have hydk : y ∉ dictKeys done :=
        hdk y (List.mem_cons_of_mem _ (List.mem_cons_self _ _))
      have hMM : addMissing (x :: y :: r) mm =
          done ++ ((x, "") :: (y, "") :: blankOf r) := by
        rw [hadd]
        simp [blankOf]
      -- the state after the tentative assignments x↦y then y↦x
      have hset1 : dictSet (done ++ ((x, "") :: (y, "") :: blankOf r)) x y =
          done ++ ((x, y) :: (y, "") :: blankOf r) := by
        rw [dictSet_append_left _ _ _ _ hxdk]
        congr 1
        simp [dictSet]
      have hset2 : dictSet (done ++ ((x, y) :: (y, "") :: blankOf r)) y x =
          done ++ ((x, y) :: (y, x) :: blankOf r) := by
        rw [dictSet_append_left _ _ _ _ hydk]
        congr 1
        simp [dictSet, hxy]
      have herase1 : (x :: y :: r).erase y = x :: r := by
        simp [List.erase_cons, hxy]
      have herase2 : (x :: r).erase x = r := by
        simp [List.erase_cons]
      -- the inner step: key y takes candidate x reciprocally
      have hinner :
          mmGo (r.length + 1 + 1) cfg (x :: r)
            (done ++ ((x, y) :: (y, "") :: blankOf r)) =
          done ++ ((x, y) :: (y, x) :: pairUp r) := by
        rw [mmGo_succ, if_neg (List.cons_ne_nil x r)]
        have hpres : ∀ s ∈ x :: r,
            (dictGet (done ++ ((x, y) :: (y, "") :: blankOf r)) s).isSome := by
          intro s hs
          rcases List.mem_cons.1 hs with hs | hs
          · subst hs
            rw [dictGet_append_left _ _ _ hxdk]
            simp [dictGet]
          · have hsx : s ≠ x := fun h => hxr (h ▸ hs)
            have hsy : s ≠ y := fun h =>
              (List.nodup_cons.1 hnd1).1 (h ▸ hs)
            rw [dictGet_append_left _ _ _ (hdk s
              (List.mem_cons_of_mem _ (List.mem_cons_of_mem _ hs)))]
            simp [dictGet, Ne.symm hsx, Ne.symm hsy, dictGet_blankOf, hs]
        rw [addMissing_eq_self _ _ hpres]
        rw [tryEntriesGen_append _ _ _ _ done _ hdone, tryEntriesGen_cons,
          if_pos hyne, tryEntriesGen_cons, if_neg (fun h => h rfl)]
        rw [tryCandsGen_cons]
        rw [if_neg (fun h => hxy h.1)]
        rw [if_neg (by simp [hrecip])]
        rw [if_neg (by simp [hfb, dictGet])]
        rw [if_pos (List.mem_cons_self x r)]
        rw [herase2, hset2]
        have hIH : mmGo (r.length + 1) cfg r
            (done ++ ((x, y) :: (y, x) :: blankOf r)) =
            (done ++ [(x, y), (y, x)]) ++ pairUp r := by
          have hdone' : ∀ p ∈ done ++ [(x, y), (y, x)], p.2 ≠ "" := by
            intro p hp
            rcases List.mem_append.1 hp with hp | hp
            · exact hdone p hp
            · rcases List.mem_cons.1 hp with hp | hp
              · rw [hp]
                exact hyne
              · simp at hp
                rw [hp]
                exact hxne
          have hdk' : ∀ s ∈ r, s ∉ dictKeys (done ++ [(x, y), (y, x)]) := by
            intro s hs hmem
            have hsx : s ≠ x := fun h => hxr (h ▸ hs)
            have hsy : s ≠ y := fun h =>
              (List.nodup_cons.1 hnd1).1 (h ▸ hs)
            simp only [dictKeys, List.map_append, List.mem_append] at hmem
            rcases hmem with hmem | hmem
            · exact hdk s (List.mem_cons_of_mem _
                (List.mem_cons_of_mem _ hs)) hmem
            · simp [hsx, hsy] at hmem
          have hadd' : addMissing r (done ++ ((x, y) :: (y, x) :: blankOf r)) =
              (done ++ [(x, y), (y, x)]) ++ blankOf r := by
            rw [addMissing_eq_self]
            · simp
            · intro s hs
              have hsx : s ≠ x := fun h => hxr (h ▸ hs)
              have hsy : s ≠ y := fun h =>
                (List.nodup_cons.1 hnd1).1 (h ▸ hs)
              rw [dictGet_append_left _ _ _ (hdk s
                (List.mem_cons_of_mem _ (List.mem_cons_of_mem _ hs)))]
              simp [dictGet, Ne.symm hsx, Ne.symm hsy, dictGet_blankOf, hs]
          exact mmGo_pairUp cfg hself hrecip hfb r heven' hnd2 hnir
            (done ++ [(x, y), (y, x)])
            (done ++ ((x, y) :: (y, x) :: blankOf r)) hdone' hdk' hadd'
        rw [hIH]
        rw [if_pos (by simp : (done ++ [(x, y), (y, x)]) ++ pairUp r ≠ [])]
        simp
      -- the outer step: key x takes candidate y
      simp only [List.length_cons]
      rw [mmGo_succ, if_neg (List.cons_ne_nil x (y :: r))]
      rw [hMM]
      rw [tryEntriesGen_append _ _ _ _ done _ hdone, tryEntriesGen_cons,
        if_neg (fun h => h rfl)]
      rw [tryCandsGen_cons, if_pos ⟨rfl, hself⟩]
      rw [tryCandsGen_cons]
      rw [if_neg (fun h => hxy h.1.symm)]
      rw [if_neg (by simp [hrecip])]
      rw [if_neg (by simp [hfb, dictGet])]
      rw [if_pos (List.mem_cons_of_mem _ (List.mem_cons_self y r))]
      rw [herase1, hset1]
      rw [hinner]
      rw [if_pos (by simp : done ++ ((x, y) :: (y, x) :: pairUp r) ≠ [])]
      simp [pairUp]

/-- C4 (amended): for a duplicate-free label set of even cardinality none of
whose labels is the empty string, with `match_to_reciprocal` on and all
other flags and constraints default, `generate_matched_map` succeeds and
returns the consecutive mutual pairing: whenever it maps `k` to `v` it also
maps `v` to `k`, and its keys are exactly the label set.  (The claim fails
as stated when a label is the empty string, see the counterexample.) -/
theorem c4_reciprocal_mutual (m : MatchedMap)
    (pre : List String → List String) (post : Assoc → Assoc)
    (hself : m.match_to_self = false) (hrecip : m.match_to_reciprocal = true)
    (hrand : m.randomize_name_order = false) (hfb : m.forbidden_matches = [])
    (hmand : m.mandatory_matches = []) (hnd : m.names.Nodup)
    (hni : "" ∉ m.names) (heven : m.names.length % 2 = 0)
    (hpost : ∀ l : Assoc, (post l).Perm l) :
    generate_matched_map m pre post = .ok (post (pairUp m.names)) ∧
      ((post (pairUp m.names)).map Prod.fst).Perm m.names ∧
      ∀ k v, (k, v) ∈ post (pairUp m.names) →
        (v, k) ∈ post (pairUp m.names) := by
  by_cases hn0 : m.names = []
  · have hp0 : pairUp m.names = [] := by
      rw [hn0]
      rfl
    have hpost0 : post (pairUp m.names) = [] := by
      rw [hp0]
      exact List.Perm.eq_nil (hpost [])
    refine ⟨?_, ?_, ?_⟩
    · rw [hpost0]
      simp [generate_matched_map, hn0]
    · rw [hpost0, hn0]
      simp
    · intro k v hkv
      rw [hpost0] at hkv
      simp at hkv
  · have hcore : recursiveMmGen m m.names [] = pairUp m.names := by
      have hadd0 : addMissing m.names [] = [] ++ blankOf m.names := by
        rw [addMissing_disjoint m.names [] hnd fun n _ => rfl]
      have h := mmGo_pairUp m hself hrecip hfb m.names heven hnd hni [] []
        (by intro p hp; simp at hp) (by intro s hs; simp [dictKeys]) hadd0
      simpa [recursiveMmGen] using h
    have hpne : pairUp m.names ≠ [] :=
      pairUp_ne_nil m.names hn0 heven
    have h1 : generate_matched_map m pre post =
        if recursiveMmGen m m.names m.mandatory_matches = [] then
          .error .noSolution
        else .ok (post (recursiveMmGen m m.names m.mandatory_matches)) := by
      simp only [generate_matched_map]
      rw [if_neg hn0, if_neg (fun h => h.2 heven)]
      rw [hrand]
      simp
    refine ⟨?_, ?_, ?_⟩
    · rw [h1, hmand, hcore, if_neg hpne]
    · have h2 := (hpost (pairUp m.names)).map Prod.fst
      rwa [pairUp_map_fst m.names heven] at h2
    · intro k v hkv
      exact (hpost _).mem_iff.2
        (mem_pairUp_swap m.names k v ((hpost _).mem_iff.1 hkv))

/-- Witness for C4: four labels with reciprocal matching on produce the
mutual pairing `{a:b, b:a, c:d, d:c}`; in particular `a↦b` forces `b↦a`. -/
theorem c4_witness :
    generate_matched_map
        { names := ["a", "b", "c", "d"], match_to_reciprocal := true } id id =
      .ok (id (pairUp ["a", "b", "c", "d"])) ∧
    (("a", "b") ∈ id (pairUp ["a", "b", "c", "d"]) →
      ("b", "a") ∈ id (pairUp ["a", "b", "c", "d"])) :=
  ⟨(c4_reciprocal_mutual
      { names := ["a", "b", "c", "d"], match_to_reciprocal := true } id id
      rfl rfl rfl rfl rfl (by decide) (by decide) (by decide)
      fun l => List.Perm.refl l).1,
   (c4_reciprocal_mutual
      { names := ["a", "b", "c", "d"], match_to_reciprocal := true } id id
      rfl rfl rfl rfl rfl (by decide) (by decide) (by decide)
      fun l => List.Perm.refl l).2.2 "a" "b"⟩

/-- Counterexample for C4 as stated: the duplicate-free label set
`a, "", c, d` has even cardinality, yet with `match_to_reciprocal` on the
call succeeds with `{a:c, "":a, c:d, d:''}`, which is not mutual: it maps
`c` to `d` but `d` to the sentinel, not back to `c`.  The empty-string
label collides with the source's "unassigned" sentinel, so the entry
`a↦""` looks unassigned and the search re-assigns `a`. -/
theorem c4_counterexample :
    generate_matched_map
        { names := ["a", "", "c", "d"], match_to_reciprocal := true } id id =
      .ok [("a", "c"), ("", "a"), ("c", "d"), ("d", "")] ∧
    ("c", "d") ∈ ([("a", "c"), ("", "a"), ("c", "d"), ("d", "")] : Assoc) ∧
    ("d", "c") ∉ ([("a", "c"), ("", "a"), ("c", "d"), ("d", "")] : Assoc) ∧
    (["a", "", "c", "d"] : List String).Nodup ∧
    (["a", "", "c", "d"] : List String).length % 2 = 0 :=
  ⟨rfl, by decide, by decide, by decide, rfl⟩

end MatchedMapVerif
